import Mathlib

/-!
Verification development for the per-file I/O engine of s3ql
(`src/s3ql/file.py`, class `file`).

The Python source is shallowly embedded below:

* byte strings are `List Nat`;
* the `s3_objects` catalog table is a `List Row` (one `Row` per SQL row;
  the source's `SELECT ... FROM bucket` in `retrieve_s3` evidently refers
  to the same table that every other statement calls `s3_objects`);
* a cache entry's open file descriptor, its on-disk cache file and that
  file's bytes are modelled together as `Row.content : Option Bytes`
  (`none` = `fd IS NULL`, i.e. not cached — the source always sets
  `fd` and `cachefile` to `NULL` together and unlinks the file at the
  same moment);
* the single open file's inode row is `FSState.ino`;
* every call of the wall clock `time()` during one operation returns
  `FSState.clock`;
* the version tags (`etag`) returned by the object store are supplied
  by an explicit argument `tagf` where an operation stores objects;
* fallible paths return `Option`, and the remote-fetch continuation of
  `retrieve_s3` (taken only for a row whose `fd` is `NULL`) is modelled
  separately by `reconcile`/`retryLoop`, which embed the etag retry loop
  of `retrieve_s3` lines 148-169 over exact rationals.

Python scaffolding slips that do not touch the logic under study are
resolved to their evident meaning and noted at the definition they
concern: the missing `self` parameter of `lock_s3key`/`unlock_s3key`,
`time.sleep` being called although `time` was imported as a function,
and tuple unpacking `(fd, etag) = res` standing for `res[0]`.
-/

namespace S3QL

/-- Byte strings (file payloads, write buffers) as lists of byte values. -/
abbrev Bytes := List Nat

/-! ### Block addressing and cache-filename escaping (lines 84, 121-124) -/

/-- First pass of the cache-filename escaping of `retrieve_s3` line 123:
Python `str.replace("~", "~~")`, doubling every tilde. -/
def repl1 : List Char → List Char
  | [] => []
  | c :: cs => if c = '~' then '~' :: '~' :: repl1 cs else c :: repl1 cs

/-- Second pass of the cache-filename escaping of `retrieve_s3` line 123:
Python `str.replace("/", "~")`, turning every path separator into a tilde. -/
def repl2 : List Char → List Char
  | [] => []
  | c :: cs => if c = '/' then '~' :: repl2 cs else c :: repl2 cs

/-- The local cache filename derived from an s3 key by `retrieve_s3`
line 123: `s3key[1:].replace("~", "~~").replace("/", "~")`.  Note that
the source drops the first character of the key. -/
def cacheFileOf (key : List Char) : List Char := repl2 (repl1 (key.drop 1))

/-- The decimal digit character for `d < 10`. -/
def digitChar (d : Nat) : Char := Char.ofNat (48 + d)

/-- Decimal rendering of a natural number, most significant digit first:
the `%d` conversion used to build s3 keys (lines 84, 122, 272). -/
def decRepr (n : Nat) : List Char :=
  if _h : n < 10 then [digitChar n]
  else decRepr (n / 10) ++ [digitChar (n % 10)]
  decreasing_by exact Nat.div_lt_self (by omega) (by omega)

/-- Decimal value of a digit character. -/
def dval (c : Char) : Nat := c.toNat - 48

/-- Decimal decoding, the left inverse of `decRepr`. -/
def decVal (l : List Char) : Nat := l.foldl (fun a c => 10 * a + dval c) 0

/-- The s3 key `"s3ql_%d-%d" % (inode, offset)` of lines 84/122/272,
as a character list. -/
def mkKey (ino off : Nat) : List Char :=
  's' :: '3' :: 'q' :: 'l' :: '_' :: (decRepr ino ++ '-' :: decRepr off)

/-! ### Catalog and state -/

/-- One row of the `s3_objects` catalog table (§6 of the spec): columns
`inode, offset, dirty, size, atime, etag`, with `fd`/`cachefile`/the
cached file's bytes merged into `content` (present iff `fd` is not
`NULL`). -/
structure Row where
  inode : Nat
  offset : Nat
  dirty : Bool
  content : Option Bytes
  size : Nat
  atimeRow : Nat
  etag : Option Nat
deriving DecidableEq

/-- The mutable columns of the open file's `inodes` row. -/
structure InodeAttrs where
  size : Nat
  atime : Nat
  mtime : Nat
  ctime : Nat
deriving DecidableEq

/-- State visible to one `file` object: the blocksize copied from the
fs at `__init__`, the opened inode's id and attributes, the
`s3_objects` rows, and the current wall-clock reading. -/
structure FSState where
  bs : Nat
  inoId : Nat
  ino : InodeAttrs
  rows : List Row
  clock : Nat
deriving DecidableEq

/-- The `WHERE s3key = "s3ql_<ino>-<off>"` test: does `r` describe the
block at `off` of inode `ino`?  (s3 keys are in bijection with such
pairs, see `c8_injective_on_generated_keys`.) -/
def rowKey (ino off : Nat) (r : Row) : Bool :=
  r.inode == ino && r.offset == off

/-- The query `SELECT ... FROM s3_objects WHERE s3key = ?`: the first row with
the given inode and block offset. -/
def findRow (rows : List Row) (ino off : Nat) : Option Row :=
  rows.find? (rowKey ino off)

/-- The statement `UPDATE s3_objects SET ... WHERE s3key = ?`: apply `f` to every
row with the given inode and block offset. -/
def updRow (rows : List Row) (ino off : Nat) (f : Row → Row) : List Row :=
  rows.map (fun r => if rowKey ino off r then f r else r)

/-- The column update `SET atime = clk`: the row updater of `retrieve_s3` line 177. -/
def atimeUpd (clk : Nat) (r : Row) : Row := { r with atimeRow := clk }

/-- The column update `SET size = obj_len` together with the bytes `os.write` left in the
cache file: the row updater of `write` lines 283-294. -/
def contentUpd (c2 : Bytes) (r : Row) : Row := { r with content := some c2, size := c2.length }

/-- The column update `SET size = len - offset_i` together with the bytes `os.ftruncate`
left in the cache file: the row updater of `ftruncate` lines 346-350. -/
def truncUpd (c2 : Bytes) (sz : Nat) (r : Row) : Row := { r with content := some c2, size := sz }

/-- The entry-atime refresh of `retrieve_s3` line 177:
`UPDATE s3_objects SET atime=? WHERE s3key=?`. -/
def setRowAtime (st : FSState) (off : Nat) : FSState :=
  { st with rows := updRow st.rows st.inoId off (atimeUpd st.clock) }

/-- Modelled from the spec: `fs.update_atime` lives in `s3ql/common.py`,
which is not under `src/`; §4.4 read step 4 says it updates the inode's
atime in the catalog (to the current time). -/
def update_atime (st : FSState) : FSState :=
  { st with ino := { st.ino with atime := st.clock } }

/-- Modelled from the spec: `fs.update_mtime` lives in `s3ql/common.py`,
which is not under `src/`; §4.4 says write/truncate update the inode's
mtime (to the current time). -/
def update_mtime (st : FSState) : FSState :=
  { st with ino := { st.ino with mtime := st.clock } }

/-! ### Local file primitives -/

/-- POSIX `os.lseek(fd, pos, os.SEEK_SET)` on a regular file: the offset is
set to `pos` — also past end of file — and the new offset, `pos`
itself, is returned.  (POSIX `lseek` never "lands short".) -/
def lseek (_fileLen pos : Nat) : Nat := pos

/-- POSIX `os.read(fd, n)` at position `pos` of a file holding `content`:
at most `n` bytes from `pos` on; past end of file it returns the empty
string. -/
def osRead (content : Bytes) (pos n : Nat) : Bytes := (content.drop pos).take n

/-- POSIX `os.write(fd, data)` at position `pos` of a file holding `content`:
a write past end of file first zero-fills the gap; writing an empty
buffer changes nothing. -/
def writeAt (content : Bytes) (pos : Nat) (data : Bytes) : Bytes :=
  if data.isEmpty then content
  else
    let padded := content ++ List.replicate (pos - content.length) 0
    padded.take pos ++ data ++ padded.drop (pos + data.length)

/-- POSIX `os.ftruncate(fd, n)`: shrink to `n` bytes, or zero-extend to `n`
bytes if the file was shorter. -/
def ftruncFile (content : Bytes) (n : Nat) : Bytes :=
  content.take n ++ List.replicate (n - content.length) 0

/-! ### retrieve_s3 (lines 105-179) -/

/-- The fresh row inserted by `retrieve_s3(offset, create=True)` at
lines 138-141: dirty, size 0, an empty newly created cache file, no
version tag yet, entry atime set to the current time. -/
def newRowAt (ino off clk : Nat) : Row :=
  { inode := ino, offset := off, dirty := true, content := some [],
    size := 0, atimeRow := clk, etag := none }

/-- The cached and create paths of `retrieve_s3(offset, create=True)`
(lines 117-141 and 176-179): if the row exists and is cached, refresh
its entry atime and hand back the cached payload; if no row exists,
`os.open(..., O_RDWR | O_CREAT)` a fresh empty cache file and
`INSERT INTO s3_objects (key, dirty, fd, cachefile, atime, size, inode, offset)
VALUES (key, True, fd, cachefile, time(), 0, inode, offset)`.
A row that exists but is not cached (`fd IS NULL`) takes the remote
fetch path, lines 143-173, modelled separately by `reconcile`: `none`. -/
def retrieveCreate (st : FSState) (off : Nat) : Option (Bytes × FSState) :=
  match findRow st.rows st.inoId off with
  | some r =>
    match r.content with
    | some c => some (c, setRowAtime st off)
    | none => none
  | none =>
    some ([], setRowAtime { st with rows := st.rows ++ [newRowAt st.inoId off st.clock] } off)

/-! ### read (lines 69-102) -/

/-- Result of a `read` call: either the returned byte string, or the
remote-fetch path of `retrieve_s3` (row present, `fd IS NULL`), whose
etag reconciliation is modelled by `reconcile`. -/
inductive ReadRes where
  | bytes (data : Bytes)
  | remoteFetch
deriving DecidableEq

/-- FUSE `read(length, offset)`, lines 69-102.  The length is clamped at the
next block boundary (lines 78-80); a missing row is a sparse hole and
yields `length` zero bytes with no row inserted and nothing fetched
(line 91-92); on a cached row the entry atime is refreshed
(`retrieve_s3` line 177), the file offset is set with `os.lseek`
(line 96; the guard compares its return value against the requested
position), the inode atime is updated (line 99) and up to `length`
bytes are read (line 100). -/
def read (st : FSState) (length offset : Nat) : ReadRes × FSState :=
  let offset_f := st.bs * (offset / st.bs + 1)
  let length := if offset + length > offset_f then offset_f - offset else length
  let offset_i := st.bs * (offset / st.bs)
  match findRow st.rows st.inoId offset_i with
  | none => (ReadRes.bytes (List.replicate length 0), st)
  | some r =>
    match r.content with
    | none => (ReadRes.remoteFetch, st)
    | some c =>
      let st1 := setRowAtime st offset_i
      let pos := offset - offset_i
      if lseek c.length pos ≠ pos then
        (ReadRes.bytes (List.replicate length 0), st1)
      else
        (ReadRes.bytes (osRead c pos length), update_atime st1)

/-! ### write (lines 263-308) -/

/-- Result of a `write` call: the byte count returned to FUSE and the
new state, or the remote-fetch path of `retrieve_s3` (modelled by
`reconcile`). -/
inductive WriteRes where
  | written (count : Nat) (st : FSState)
  | remoteFetch
deriving DecidableEq

/-- FUSE `write(buf, offset)`, lines 263-308: obtain the block with
`create=True`; seek to `offset - offset_i` and write at most
`maxwrite = offset_i + blocksize - offset` bytes (the source assigns
`writelen = maxwrite` and immediately overwrites it with the count
returned by `os.write`, which is the number of bytes handed to it);
store the file's new end-of-file position in the row's `size` column
(lines 292-294); then `SELECT s3key FROM s3_objects WHERE inode=? AND
offset > ?` and — when that result is NON-empty (line 299
`if list(res):`) — set the inode size to `offset_i + obj_len` and its
ctime to `time()` (lines 300-301); finally update the inode mtime. -/
def write (st : FSState) (buf : Bytes) (offset : Nat) : WriteRes :=
  let offset_i := st.bs * (offset / st.bs)
  let maxwrite := (offset_i + st.bs) - offset
  match retrieveCreate st offset_i with
  | none => WriteRes.remoteFetch
  | some (c, st1) =>
    let pos := offset - offset_i
    let data := if buf.length > maxwrite then buf.take maxwrite else buf
    let writelen := data.length
    let c2 := writeAt c pos data
    let obj_len := c2.length
    let st2 := { st1 with rows := updRow st1.rows st1.inoId offset_i (contentUpd c2) }
    let higher := st2.rows.any (fun r => r.inode == st2.inoId && decide (offset_i < r.offset))
    let newIno :=
      if higher then { st2.ino with size := offset_i + obj_len, ctime := st2.clock }
      else st2.ino
    WriteRes.written writelen (update_mtime { st2 with ino := newIno })

/-! ### Upload traces (expire_cache lines 181-219, fsync lines 363-383) -/

/-- Externally visible actions of eviction and fsync, in program order;
every constructor carries the block address `(inode, offset)` of the
s3 key it concerns. -/
inductive Ev where
  | closeFd (ino off : Nat)
  | fsyncLocal (ino off : Nat)
  | upload (ino off : Nat)
  | clearDirty (ino off : Nat)
  | setEtag (ino off : Nat)
  | unlink (ino off : Nat)
deriving DecidableEq

/-- The store (upload) events of a trace. -/
def uploadsOf (evs : List Ev) : List Ev :=
  evs.filter (fun e => match e with | Ev.upload _ _ => true | _ => false)

/-- One iteration of the eviction loop of `expire_cache` for an already
selected and key-locked victim, lines 199-217: re-read the row under
the lock; if it has been deleted or already flushed, do nothing
(`continue`); otherwise `os.close` the handle, upload with
`bucket.store_from_file` — the source does this whether or not the row
is dirty — then `UPDATE s3_objects SET dirty=False, fd=NULL,
cachefile=NULL, etag=<returned tag>` and unlink the cache file.
`tagf ino off` is the version tag the object store returns. -/
def evictVictim (tagf : Nat → Nat → Nat) (st : FSState) (ino off : Nat) :
    List Ev × FSState :=
  match findRow st.rows ino off with
  | none => ([], st)
  | some r =>
    match r.content with
    | none => ([], st)
    | some _ =>
      let rows' := updRow st.rows ino off
        (fun r => { r with dirty := false, content := none, etag := some (tagf ino off) })
      ([Ev.closeFd ino off, Ev.upload ino off, Ev.clearDirty ino off,
        Ev.setEtag ino off, Ev.unlink ino off],
       { st with rows := rows' })

/-- The per-row body of `fsync`, iterated over the snapshot of dirty
rows (lines 377-383): first `UPDATE s3_objects SET dirty=False`, then
`os.fsync(fd)`, then upload with `bucket.store_from_file`, then record
the returned tag with `UPDATE s3_objects SET etag=?`. -/
def processDirtyRows (tagf : Nat → Nat → Nat) (st : FSState) :
    List (Nat × Nat) → List Ev × FSState
  | [] => ([], st)
  | k :: ks =>
    let st1 := { st with rows := updRow st.rows k.1 k.2 (fun r => { r with dirty := false }) }
    let rows2 := updRow st1.rows k.1 k.2 (fun r => { r with etag := some (tagf k.1 k.2) })
    let st2 := { st1 with rows := rows2 }
    let rest := processDirtyRows tagf st2 ks
    (Ev.clearDirty k.1 k.2 :: Ev.fsyncLocal k.1 k.2 :: Ev.upload k.1 k.2 ::
      Ev.setEtag k.1 k.2 :: rest.1, rest.2)

/-- FUSE `fsync(fdatasync)`, lines 363-383: `SELECT s3key, fd, cachefile
FROM s3_objects WHERE dirty=True AND inode=?` (a snapshot taken before
the loop runs), then process each selected row in order.  No key lock
is taken. -/
def fsyncOp (tagf : Nat → Nat → Nat) (st : FSState) : List Ev × FSState :=
  processDirtyRows tagf st
    ((st.rows.filter (fun r => r.dirty && r.inode == st.inoId)).map
      (fun r => (r.inode, r.offset)))

/-! ### ftruncate (lines 311-355) -/

/-- Modelled from the spec: `self.get_locked_s3(offset)` (line 334) is
not defined anywhere under `src/`, and its argument `offset` is an
unbound name; §4.4 truncate step 3 and §9 resolve it as "acquire the
key lock of the final (partial) block that straddles `new_length` and
open that block via the cache, creating it if needed" — i.e.
`retrieve_s3(blocksize * ((new_length - 1) / blocksize), create=True)`
for a positive `new_length`. -/
def get_locked_s3 (st : FSState) (n : Nat) : Option (Nat × Bytes × FSState) :=
  let offset_b := st.bs * ((n - 1) / st.bs)
  (retrieveCreate st offset_b).map (fun p => (offset_b, p.1, p.2))

/-- FUSE `ftruncate(len)`, lines 311-355 (the unbound `inode` of line 320 is
read as `self.inode`): first `SELECT` and `DELETE` every `s3_objects`
row of this inode with `offset >= len`, closing/unlinking their cache
files and deleting the remote objects; then open the last block before
the truncation point (see `get_locked_s3`; with `len = 0` no block
precedes the truncation point and every row is gone, so the model stops
after the deletion and the mtime update); if `len` lies beyond the
current end of that block, extend by writing one zero byte at
`len - 1`, otherwise `os.ftruncate` the cache file to `len - offset_i`,
set the inode size to `len` and the row size to `len - offset_i`;
finally update the inode mtime. -/
def ftruncate (st : FSState) (n : Nat) : Option FSState :=
  let kept := st.rows.filter (fun r => !(r.inode == st.inoId && decide (n ≤ r.offset)))
  let st0 := { st with rows := kept }
  if n = 0 then some (update_mtime st0)
  else
    match get_locked_s3 st0 n with
    | none => none
    | some (offset_b, c, st1) =>
      let cursize := offset_b + c.length
      if n > cursize then
        match write st1 [0] (n - 1) with
        | WriteRes.written _ st2 => some (update_mtime st2)
        | WriteRes.remoteFetch => none
      else
        let rows2 := updRow st1.rows st1.inoId offset_b
          (truncUpd (ftruncFile c (n - offset_b)) (n - offset_b))
        let st2 := { st1 with rows := rows2 }
        let st3 := { st2 with ino := { st2.ino with size := n } }
        some (update_mtime st3)

/-! ### The etag reconciliation loop of retrieve_s3 (lines 148-169) -/

/-- The retry loop of `retrieve_s3` lines 152-159, over exact rationals
(the source uses Python floats; the loop structure, the 10 ms initial
delay, the 1.5 growth factor and the 30 s ceiling are what is under
study).  `lookup k` is the tag returned by the `k`-th
`bucket.lookup_key` call; `etag` is the tag recorded in the catalog;
`meta` is the tag seen most recently; `waited`/`waittime` are the
loop's accumulators.  The `fuel` argument bounds the recursion depth
and is a modelling artifact: `retryLoop_isSome` shows that `3001`
units are never exhausted (each pass adds at least 10 ms to `waited`,
and the loop stops once `waited` reaches 30).  Returns the list of
sleep durations in order and the final tag seen, or `none` on fuel
exhaustion (`time.sleep(waittime)` — with `time` evidently the module,
although line 11 imported the function — then `waited += waittime;
waittime *= 1.5; meta = lookup_key(...)`). -/
def retryLoop (lookup : Nat → Nat) (etag : Nat) :
    Nat → Nat → ℚ → ℚ → Nat → Option (List ℚ × Nat)
  | 0, meta, waited, _, _ =>
    if meta ≠ etag ∧ waited < 30 then none else some ([], meta)
  | fuel + 1, meta, waited, waittime, k =>
    if meta ≠ etag ∧ waited < 30 then
      match retryLoop lookup etag fuel (lookup k) (waited + waittime)
          (waittime * (3 / 2)) (k + 1) with
      | none => none
      | some (ws, m) => some (waittime :: ws, m)
    else some ([], meta)

/-- Outcome of the etag check of `retrieve_s3` lines 148-169: the sleep
durations, the last tag seen, whether `fs.mark_damaged()` ran, whether
`FUSEError(errno.EIO)` was raised, and whether the payload was fetched
again after the tags agreed (line 169). -/
structure RetrieveOut where
  waits : List ℚ
  finalTag : Nat
  damaged : Bool
  ioError : Bool
  refetched : Bool
deriving DecidableEq

/-- The etag check of `retrieve_s3` lines 148-169: if the tag of the
fetched object (`meta0`) already matches the catalog tag, nothing
happens; otherwise run the retry loop with `waited = 0`,
`waittime = 0.01`; if the tags still disagree afterwards, mark the
filesystem damaged and raise an I/O error, else fetch the payload
again.  (`none` only on fuel exhaustion; `reconcile_isSome` rules
that out.) -/
def reconcile (lookup : Nat → Nat) (etag meta0 : Nat) : Option RetrieveOut :=
  if meta0 = etag then
    some { waits := [], finalTag := meta0, damaged := false,
           ioError := false, refetched := false }
  else
    match retryLoop lookup etag 3001 meta0 0 (1 / 100) 0 with
    | none => none
    | some (ws, m) =>
      if m = etag then
        some { waits := ws, finalTag := m, damaged := false,
               ioError := false, refetched := true }
      else
        some { waits := ws, finalTag := m, damaged := true,
               ioError := true, refetched := false }

/-! ### The key-lock registry (lines 223-260) -/

/-- One transition of the key-lock registry.  The registry state is the
list of held `(key, task)` pairs — the source keeps the set
`cv.locked_keys` of held keys, guarded by the global mutex `cv`; the
task component is ghost information recording which caller added the
key.  `lock` is the atomic step of `lock_s3key` (lines 229-240, with
the evidently missing `self` parameter restored): under the global
mutex the caller waits on `cv` while `s3key in cv.locked_keys`, so the
key is added only in a state where no task holds it.  `unlock` is
`unlock_s3key` (lines 249-260): remove the key and notify all
waiters. -/
inductive LockStep : List (String × Nat) → List (String × Nat) → Prop
  | lock (s : List (String × Nat)) (k : String) (t : Nat)
      (h : ∀ p ∈ s, p.1 ≠ k) : LockStep s ((k, t) :: s)
  | unlock (s : List (String × Nat)) (k : String) (t : Nat) :
      LockStep s (s.erase (k, t))

/-- Registry states reachable from the empty registry by any
interleaving of lock and unlock steps. -/
inductive LockReach : List (String × Nat) → Prop
  | init : LockReach []
  | step {s s' : List (String × Nat)} : LockReach s → LockStep s s' → LockReach s'

/-! ### Concrete states used by the closed theorems -/

/-- A fresh inode 1 with an empty catalog, blocksize 16 (scenario S1 of
the spec). -/
def freshState : FSState :=
  { bs := 16, inoId := 1, ino := { size := 0, atime := 0, mtime := 0, ctime := 0 },
    rows := [], clock := 100 }

/-- Inode 1, blocksize 16, one cached block at offset 0 whose payload
is the two bytes `[7, 7]`, dirty flag clear. -/
def shortPayloadState : FSState :=
  { bs := 16, inoId := 1, ino := { size := 2, atime := 0, mtime := 0, ctime := 0 },
    rows := [{ inode := 1, offset := 0, dirty := false, content := some [7, 7],
               size := 2, atimeRow := 0, etag := some 5 }], clock := 100 }

/-- Inode 1, blocksize 16, one cached CLEAN block at offset 0
(candidate eviction victim whose dirty flag is clear). -/
def cleanVictimState : FSState :=
  { bs := 16, inoId := 1, ino := { size := 1, atime := 0, mtime := 0, ctime := 0 },
    rows := [{ inode := 1, offset := 0, dirty := false, content := some [5],
               size := 1, atimeRow := 0, etag := some 9 }], clock := 100 }

/-- Same as `shortPayloadState` but with a distinct clock, used by the
frame counterexample of claim C10. -/
def atimeProbeState : FSState :=
  { bs := 16, inoId := 1, ino := { size := 2, atime := 3, mtime := 4, ctime := 5 },
    rows := [{ inode := 1, offset := 0, dirty := false, content := some [7, 7],
               size := 2, atimeRow := 0, etag := some 5 }], clock := 100 }

/-- Inode 1, blocksize 16, one cached block at offset 0 holding three
bytes, used by the truncation witness. -/
def threeByteState : FSState :=
  { bs := 16, inoId := 1, ino := { size := 3, atime := 0, mtime := 0, ctime := 0 },
    rows := [{ inode := 1, offset := 0, dirty := true, content := some [1, 1, 1],
               size := 3, atimeRow := 0, etag := none }], clock := 100 }

/-- The state carried by a successful `write` result. -/
def writtenSt : WriteRes → Option FSState
  | WriteRes.written _ st => some st
  | WriteRes.remoteFetch => none

/-- The byte count carried by a successful `write` result. -/
def writtenCount : WriteRes → Option Nat
  | WriteRes.written n _ => some n
  | WriteRes.remoteFetch => none

/-! ## Theorems -/

/-! ### Catalog-access lemmas -/

theorem rowKey_eq_true_iff (ino off : Nat) (r : Row) :
    rowKey ino off r = true ↔ r.inode = ino ∧ r.offset = off := by
  simp [rowKey]

theorem findRow_eq_none_iff (rows : List Row) (ino off : Nat) :
    findRow rows ino off = none ↔ ∀ r ∈ rows, ¬(r.inode = ino ∧ r.offset = off) := by
  simp [findRow, List.find?_eq_none, rowKey]

theorem findRow_updRow (rows : List Row) (ino off : Nat) (f : Row → Row)
    (hf : ∀ r, (f r).inode = r.inode ∧ (f r).offset = r.offset) :
    findRow (updRow rows ino off f) ino off = (findRow rows ino off).map f := by
  induction rows with
  | nil => rfl
  | cons a l ih =>
    have hk : rowKey ino off (f a) = rowKey ino off a := by
      unfold rowKey; rw [(hf a).1, (hf a).2]
    cases hb : rowKey ino off a with
    | true =>
      simp only [findRow, updRow, List.map_cons, hb, if_true, List.find?_cons, hk]
      rfl
    | false =>
      simpa only [findRow, updRow, List.map_cons, hb, if_false, Bool.false_eq_true,
        List.find?_cons, hk] using ih

theorem mem_updRow (rows : List Row) (ino off : Nat) (f : Row → Row) (r' : Row)
    (h : r' ∈ updRow rows ino off f) :
    ∃ r ∈ rows, r' = f r ∨ r' = r := by
  rcases List.mem_map.mp h with ⟨r, hr, heq⟩
  refine ⟨r, hr, ?_⟩
  cases hp : rowKey ino off r with
  | true => left; rw [← heq]; simp [hp]
  | false => right; rw [← heq]; simp [hp]

/-! ### Unfolding lemmas for read -/

theorem read_miss (st : FSState) (length offset : Nat)
    (h : findRow st.rows st.inoId (st.bs * (offset / st.bs)) = none) :
    read st length offset =
      (ReadRes.bytes (List.replicate
        (if offset + length > st.bs * (offset / st.bs + 1)
          then st.bs * (offset / st.bs + 1) - offset else length) 0), st) := by
  simp only [read, h]

theorem read_hit (st : FSState) (length offset : Nat) (r : Row) (c : Bytes)
    (h1 : findRow st.rows st.inoId (st.bs * (offset / st.bs)) = some r)
    (h2 : r.content = some c) :
    read st length offset =
      (ReadRes.bytes (osRead c (offset - st.bs * (offset / st.bs))
        (if offset + length > st.bs * (offset / st.bs + 1)
          then st.bs * (offset / st.bs + 1) - offset else length)),
       update_atime (setRowAtime st (st.bs * (offset / st.bs)))) := by
  simp only [read, h1, h2, lseek, ne_eq, not_true_eq_false, if_false, ite_self]

/-! ### Claim C1 -/

/-- C1: the claim states that `write` leaves the inode size unchanged
when a block with a strictly greater offset exists and otherwise sets
it to `block_offset + new_local_size` and bumps ctime.  The source
(lines 296-301) runs the size/ctime update exactly when the
higher-offset query result is NON-empty (`if list(res):`), i.e. under
the inverted guard: on a fresh inode — where no higher-offset block
exists and the claim demands size 3 and a ctime bump — writing three
bytes at offset 0 returns 3 but leaves both the inode size and ctime
untouched. -/
theorem c1_write_size_guard_inverted :
    writtenCount (write freshState [1, 2, 3] 0) = some 3 ∧
    (writtenSt (write freshState [1, 2, 3] 0)).map (fun s => (s.ino.size, s.ino.ctime)) =
      some (freshState.ino.size, freshState.ino.ctime) ∧
    freshState.ino.size ≠ 3 ∧
    (freshState.rows.any fun r =>
      r.inode == freshState.inoId && decide (0 < r.offset)) = false := by
  decide

/-! ### Claim C6 -/

/-- C6: on a missing catalog row, `read(10, 5)` on a fresh inode
returns ten zero bytes, fetches nothing and inserts nothing (the state
is unchanged), as the claim states; but when the block exists and its
cached payload (two bytes) is shorter than `offset - block_offset`
(three), `read(4, 3)` returns the EMPTY byte string rather than the
`length` zero bytes the claim demands: the guard on line 96 compares
the return value of `os.lseek(fd, pos, SEEK_SET)` with `pos`, and
POSIX `lseek` returns the requested offset even past end of file, so
the hole branch of lines 94-97 is unreachable and `os.read` at a
position at or past end of file returns the empty string. -/
theorem c6_short_payload_read_empty :
    (read freshState 10 5).1 = ReadRes.bytes (List.replicate 10 0) ∧
    (read freshState 10 5).2 = freshState ∧
    (read shortPayloadState 4 3).1 = ReadRes.bytes [] ∧
    ReadRes.bytes [] ≠ ReadRes.bytes (List.replicate 4 0) := by
  decide

/-! ### Claim C7 -/

/-- C7: every byte string `read` hands back has length at most the
clamped length, which in turn never exceeds the distance from `offset`
to the next block boundary `(floor(offset/blocksize)+1) * blocksize`
(lines 76-84). -/
theorem c7_read_never_crosses_block (st : FSState) (length offset : Nat) (l : Bytes)
    (h : (read st length offset).1 = ReadRes.bytes l) :
    l.length ≤ (if offset + length > st.bs * (offset / st.bs + 1)
      then st.bs * (offset / st.bs + 1) - offset else length) ∧
    l.length ≤ st.bs * (offset / st.bs + 1) - offset := by
  have hb : (if offset + length > st.bs * (offset / st.bs + 1)
      then st.bs * (offset / st.bs + 1) - offset else length) ≤
      st.bs * (offset / st.bs + 1) - offset := by
    split
    · exact Nat.le_refl _
    · omega
  cases h1 : findRow st.rows st.inoId (st.bs * (offset / st.bs)) with
  | none =>
    rw [read_miss st length offset h1] at h
    cases h
    simp only [List.length_replicate]
    exact ⟨Nat.le_refl _, hb⟩
  | some r =>
    cases h2 : r.content with
    | none =>
      simp only [read, h1, h2] at h
      cases h
    | some c =>
      rw [read_hit st length offset r c h1 h2] at h
      cases h
      have hl : (osRead c (offset - st.bs * (offset / st.bs))
          (if offset + length > st.bs * (offset / st.bs + 1)
            then st.bs * (offset / st.bs + 1) - offset else length)).length ≤
          (if offset + length > st.bs * (offset / st.bs + 1)
            then st.bs * (offset / st.bs + 1) - offset else length) := by
        simp only [osRead, List.length_take]
        omega
      exact ⟨hl, Nat.le_trans hl hb⟩

/-- Witness for C7 at a concrete input: a sparse read of ten bytes at
offset 5 with blocksize 16 stays within the block. -/
theorem c7_read_never_crosses_block_witness :
    (read freshState 10 5).1 = ReadRes.bytes (List.replicate 10 0) ∧
    (List.replicate 10 (0 : Nat)).length ≤ 16 * (5 / 16 + 1) - 5 :=
  ⟨by decide, (c7_read_never_crosses_block freshState 10 5
      (List.replicate 10 0) (by decide)).2⟩

/-! ### Claim C3 -/

/-- C3 counterexample: the claim says a victim whose dirty flag is
clear is evicted WITHOUT an upload; but `expire_cache` (lines 199-217)
calls `bucket.store_from_file` unconditionally once the re-check under
the lock passes, so evicting the clean cached block of
`cleanVictimState` performs an upload. -/
theorem c3_clean_eviction_uploads :
    cleanVictimState.rows.map Row.dirty = [false] ∧
    uploadsOf (evictVictim (fun _ _ => 42) cleanVictimState 1 0).1 = [Ev.upload 1 0] := by
  decide

/-- C3 amended: for every selected victim that is still cached after
its key lock is acquired, `expire_cache` uploads it REGARDLESS of the
dirty flag, records the returned version tag, clears the dirty flag,
deletes the local file and sets the handle to absent (`content`
becomes `none`). -/
theorem c3_eviction_always_uploads (tagf : Nat → Nat → Nat) (st : FSState)
    (ino off : Nat) (r : Row) (c : Bytes)
    (h1 : findRow st.rows ino off = some r) (h2 : r.content = some c) :
    uploadsOf (evictVictim tagf st ino off).1 = [Ev.upload ino off] ∧
    findRow (evictVictim tagf st ino off).2.rows ino off =
      some { r with dirty := false, content := none, etag := some (tagf ino off) } := by
  constructor
  · simp [evictVictim, h1, h2, uploadsOf]
  · have : (evictVictim tagf st ino off).2.rows =
        updRow st.rows ino off
          (fun r => { r with dirty := false, content := none, etag := some (tagf ino off) }) := by
      simp [evictVictim, h1, h2]
    rw [this, findRow_updRow st.rows ino off
      (fun r => { r with dirty := false, content := none, etag := some (tagf ino off) })
      (fun r => ⟨rfl, rfl⟩), h1]
    rfl

/-- Witness for C3's amended theorem: evicting the (clean, cached)
block of `cleanVictimState` uploads it and leaves the row flushed. -/
theorem c3_eviction_always_uploads_witness :
    uploadsOf (evictVictim (fun _ _ => 42) cleanVictimState 1 0).1 = [Ev.upload 1 0] ∧
    findRow (evictVictim (fun _ _ => 42) cleanVictimState 1 0).2.rows 1 0 =
      some { inode := 1, offset := 0, dirty := false, content := none,
             size := 1, atimeRow := 0, etag := some 42 } :=
  c3_eviction_always_uploads (fun _ _ => 42) cleanVictimState 1 0
    { inode := 1, offset := 0, dirty := false, content := some [5],
      size := 1, atimeRow := 0, etag := some 9 } [5] (by decide) rfl

/-! ### Claim C10 -/

/-- C10 counterexample: a read that returns zero bytes because the
cached payload (two bytes) is shorter than the requested position
(three) nevertheless updates the inode's atime, because the
short-seek guard of line 96 can never fire (POSIX `lseek` returns the
requested offset) and control falls through to `update_atime`
(line 99).  The claim says such a read leaves the inode unchanged. -/
theorem c10_zero_read_updates_atime :
    (read atimeProbeState 4 3).1 = ReadRes.bytes [] ∧
    ((read atimeProbeState 4 3).2).ino.atime = atimeProbeState.clock ∧
    atimeProbeState.clock ≠ atimeProbeState.ino.atime := by
  decide

/-- C10 amended: `read` leaves the whole state — in particular every
inode field — unchanged exactly on the missing-row path; on every
cached-row path (whether or not the payload reaches the requested
position) it sets the inode's atime to the current time and leaves
size, mtime and ctime unchanged. -/
theorem c10_read_frame (st : FSState) (length offset : Nat) :
    (findRow st.rows st.inoId (st.bs * (offset / st.bs)) = none →
      (read st length offset).2 = st) ∧
    (∀ r c, findRow st.rows st.inoId (st.bs * (offset / st.bs)) = some r →
      r.content = some c →
      (read st length offset).2.ino.atime = st.clock ∧
      (read st length offset).2.ino.size = st.ino.size ∧
      (read st length offset).2.ino.mtime = st.ino.mtime ∧
      (read st length offset).2.ino.ctime = st.ino.ctime) := by
  constructor
  · intro h
    rw [read_miss st length offset h]
  · intro r c h1 h2
    rw [read_hit st length offset r c h1 h2]
    simp [update_atime, setRowAtime]

/-- Witness for C10's amended theorem at the concrete short-payload
state. -/
theorem c10_read_frame_witness :
    (read atimeProbeState 4 3).2.ino.atime = atimeProbeState.clock ∧
    (read atimeProbeState 4 3).2.ino.size = atimeProbeState.ino.size ∧
    (read atimeProbeState 4 3).2.ino.mtime = atimeProbeState.ino.mtime ∧
    (read atimeProbeState 4 3).2.ino.ctime = atimeProbeState.ino.ctime :=
  (c10_read_frame atimeProbeState 4 3).2
    { inode := 1, offset := 0, dirty := false, content := some [7, 7],
      size := 2, atimeRow := 0, etag := some 5 } [7, 7] (by decide) rfl

/-! ### Claim C5 -/

theorem mem_updRow_iff (rows : List Row) (ino off : Nat) (f : Row → Row) (r' : Row) :
    r' ∈ updRow rows ino off f ↔
      ∃ r ∈ rows, r' = (if rowKey ino off r then f r else r) := by
  unfold updRow
  rw [List.mem_map]
  constructor
  · rintro ⟨r, hr, he⟩; exact ⟨r, hr, he.symm⟩
  · rintro ⟨r, hr, he⟩; exact ⟨r, hr, he.symm⟩

theorem processDirtyRows_upload_after_clear (tagf : Nat → Nat → Nat) :
    ∀ (ks : List (Nat × Nat)) (st : FSState) (j i1 o1 : Nat),
      ((processDirtyRows tagf st ks).1).get? j = some (Ev.upload i1 o1) →
      ∃ i, i < j ∧ ((processDirtyRows tagf st ks).1).get? i = some (Ev.clearDirty i1 o1) := by
  intro ks
  induction ks with
  | nil => intro st j i1 o1 h; simp [processDirtyRows] at h
  | cons k ks ih =>
    intro st j i1 o1 h
    simp only [processDirtyRows] at h ⊢
    rcases j with _ | _ | _ | _ | j
    · simp at h
    · simp at h
    · rw [List.get?_cons_succ, List.get?_cons_succ, List.get?_cons_zero] at h
      rcases Option.some.injEq .. ▸ h with he
      cases he
      exact ⟨0, by omega, by rw [List.get?_cons_zero]⟩
    · simp at h
    · rw [List.get?_cons_succ, List.get?_cons_succ, List.get?_cons_succ,
        List.get?_cons_succ] at h
      rcases ih _ j i1 o1 h with ⟨i, hi, hget⟩
      exact ⟨i + 4, by omega, by
        rw [List.get?_cons_succ, List.get?_cons_succ, List.get?_cons_succ,
          List.get?_cons_succ]
        exact hget⟩

theorem processDirtyRows_etag_after_upload (tagf : Nat → Nat → Nat) :
    ∀ (ks : List (Nat × Nat)) (st : FSState) (j i1 o1 : Nat),
      ((processDirtyRows tagf st ks).1).get? j = some (Ev.upload i1 o1) →
      ∃ i, j < i ∧ ((processDirtyRows tagf st ks).1).get? i = some (Ev.setEtag i1 o1) := by
  intro ks
  induction ks with
  | nil => intro st j i1 o1 h; simp [processDirtyRows] at h
  | cons k ks ih =>
    intro st j i1 o1 h
    simp only [processDirtyRows] at h ⊢
    rcases j with _ | _ | _ | _ | j
    · simp at h
    · simp at h
    · rw [List.get?_cons_succ, List.get?_cons_succ, List.get?_cons_zero] at h
      rcases Option.some.injEq .. ▸ h with he
      cases he
      exact ⟨3, by omega, by
        rw [List.get?_cons_succ, List.get?_cons_succ, List.get?_cons_succ,
          List.get?_cons_zero]⟩
    · simp at h
    · rw [List.get?_cons_succ, List.get?_cons_succ, List.get?_cons_succ,
        List.get?_cons_succ] at h
      rcases ih _ j i1 o1 h with ⟨i, hi, hget⟩
      exact ⟨i + 4, by omega, by
        rw [List.get?_cons_succ, List.get?_cons_succ, List.get?_cons_succ,
          List.get?_cons_succ]
        exact hget⟩

theorem processDirtyRows_inoId (tagf : Nat → Nat → Nat) :
    ∀ (ks : List (Nat × Nat)) (st : FSState),
      (processDirtyRows tagf st ks).2.inoId = st.inoId := by
  intro ks
  induction ks with
  | nil => intro st; rfl
  | cons k ks ih => intro st; simpa only [processDirtyRows] using ih _

theorem double_upd_dirty (rows : List Row) (k1 k2 tag : Nat) :
    ∀ r2 ∈ updRow (updRow rows k1 k2 (fun r => { r with dirty := false })) k1 k2
        (fun r => { r with etag := some tag }),
      (r2 ∈ rows ∧ rowKey k1 k2 r2 = false) ∨ r2.dirty = false := by
  intro r2 h2
  obtain ⟨r1, h1, he1⟩ := (mem_updRow_iff _ _ _ _ r2).mp h2
  obtain ⟨r0, h0, he0⟩ := (mem_updRow_iff _ _ _ _ r1).mp h1
  cases hk : rowKey k1 k2 r0 with
  | true =>
    right
    have hd1 : r1.dirty = false := by rw [he0, if_pos hk]
    rw [he1]
    cases hk1 : rowKey k1 k2 r1 with
    | true => rw [if_pos rfl]; exact hd1
    | false => rw [if_neg (by simp)]; exact hd1
  | false =>
    left
    have hr1 : r1 = r0 := by rw [he0, if_neg (by simp [hk])]
    have hk1 : rowKey k1 k2 r1 = false := by rw [hr1]; exact hk
    have hr2 : r2 = r0 := by rw [he1, if_neg (by simp [hk1]), hr1]
    exact ⟨hr2 ▸ h0, by rw [hr2]; exact hk⟩

theorem processDirtyRows_clears (tagf : Nat → Nat → Nat) :
    ∀ (ks : List (Nat × Nat)) (st : FSState),
      (∀ r ∈ st.rows, r.dirty = true → r.inode = st.inoId → (r.inode, r.offset) ∈ ks) →
      ∀ r ∈ (processDirtyRows tagf st ks).2.rows, r.inode = st.inoId → r.dirty = false := by
  intro ks
  induction ks with
  | nil =>
    intro st hcover r hr hino
    cases hd : r.dirty with
    | false => rfl
    | true => exact absurd (hcover r hr hd hino) (List.not_mem_nil _)
  | cons k ks ih =>
    intro st hcover r hr hino
    simp only [processDirtyRows] at hr
    refine ih _ ?_ r hr hino
    intro r2 hr2 hd2 hino2
    rcases double_upd_dirty st.rows k.1 k.2 (tagf k.1 k.2) r2 hr2 with ⟨hmem, hkey⟩ | hclean
    · have hin := hcover r2 hmem hd2 hino2
      rcases List.mem_cons.mp hin with hc | hc
      · exfalso
        have hkt : rowKey k.1 k.2 r2 = true := by
          rw [rowKey_eq_true_iff]
          exact ⟨congrArg Prod.fst hc, congrArg Prod.snd hc⟩
        rw [hkt] at hkey; cases hkey
      · exact hc
    · rw [hd2] at hclean; cases hclean

theorem fsyncOp_leaves_clean (tagf : Nat → Nat → Nat) (st : FSState) :
    ∀ r ∈ (fsyncOp tagf st).2.rows, r.inode = st.inoId → r.dirty = false := by
  unfold fsyncOp
  refine processDirtyRows_clears tagf _ st ?_
  intro r hr hd hino
  rw [List.mem_map]
  refine ⟨r, ?_, rfl⟩
  rw [List.mem_filter]
  exact ⟨hr, by simp [hd, hino]⟩

/-- C5: `fsync` clears the dirty flag of each selected entry strictly
before the upload event of that entry and records the returned version
tag strictly after it (lines 377-383 process each snapshot row as
`UPDATE dirty=False`, `os.fsync`, `store_from_file`, `UPDATE etag=?`);
and because every row of the inode is clean afterwards, a second
`fsync` with no intervening modification selects nothing and performs
no uploads. -/
theorem c5_fsync_clear_before_upload (tagf tagf2 : Nat → Nat → Nat) (st : FSState) :
    (∀ j i1 o1, ((fsyncOp tagf st).1).get? j = some (Ev.upload i1 o1) →
      ∃ i, i < j ∧ ((fsyncOp tagf st).1).get? i = some (Ev.clearDirty i1 o1)) ∧
    (∀ j i1 o1, ((fsyncOp tagf st).1).get? j = some (Ev.upload i1 o1) →
      ∃ i, j < i ∧ ((fsyncOp tagf st).1).get? i = some (Ev.setEtag i1 o1)) ∧
    uploadsOf (fsyncOp tagf2 ((fsyncOp tagf st).2)).1 = [] := by
  refine ⟨?_, ?_, ?_⟩
  · intro j i1 o1 h
    exact processDirtyRows_upload_after_clear tagf _ st j i1 o1 h
  · intro j i1 o1 h
    exact processDirtyRows_etag_after_upload tagf _ st j i1 o1 h
  · have hino : ((fsyncOp tagf st).2).inoId = st.inoId := by
      unfold fsyncOp; exact processDirtyRows_inoId tagf _ st
    have hclean := fsyncOp_leaves_clean tagf st
    have hfil : ((fsyncOp tagf st).2).rows.filter
        (fun r => r.dirty && r.inode == ((fsyncOp tagf st).2).inoId) = [] := by
      rw [List.filter_eq_nil_iff]
      intro r hr
      cases hi : (r.inode == ((fsyncOp tagf st).2).inoId) with
      | false => simp
      | true =>
        have hie : r.inode = ((fsyncOp tagf st).2).inoId := beq_iff_eq.mp hi
        have hd : r.dirty = false := hclean r hr (hie.trans hino)
        simp [hd]
    show uploadsOf (processDirtyRows tagf2 _ _).1 = []
    rw [hfil]
    rfl

/-- Witness for C5 on a concrete dirty block: the first `fsync` emits
its clear-dirty event before the upload of block (1, 0), and a second
`fsync` performs no uploads. -/
theorem c5_fsync_clear_before_upload_witness :
    (∃ i, i < 2 ∧
      ((fsyncOp (fun _ _ => 7) threeByteState).1).get? i = some (Ev.clearDirty 1 0)) ∧
    uploadsOf (fsyncOp (fun _ _ => 7) ((fsyncOp (fun _ _ => 7) threeByteState).2)).1 = [] :=
  ⟨(c5_fsync_clear_before_upload (fun _ _ => 7) (fun _ _ => 7) threeByteState).1 2 1 0
      (by decide),
   (c5_fsync_clear_before_upload (fun _ _ => 7) (fun _ _ => 7) threeByteState).2.2⟩

/-! ### Claim C2 -/

theorem ftruncFile_length (c : Bytes) (n : Nat) : (ftruncFile c n).length = n := by
  simp only [ftruncFile, List.length_append, List.length_take, List.length_replicate]
  omega

theorem writeAt_nil (c : Bytes) (pos : Nat) : writeAt c pos [] = c := rfl

theorem writeAt_singleton_length (c : Bytes) (pos d : Nat) (h : c.length ≤ pos) :
    (writeAt c pos [d]).length = pos + 1 := by
  simp only [writeAt, List.isEmpty_cons, Bool.false_eq_true, if_false,
    List.length_append, List.length_take, List.length_replicate, List.length_drop,
    List.length_cons, List.length_nil]
  omega

theorem retrieveCreate_spec (st : FSState) (off : Nat) (c : Bytes) (st1 : FSState)
    (h : retrieveCreate st off = some (c, st1)) :
    st1.bs = st.bs ∧ st1.inoId = st.inoId ∧ st1.ino = st.ino ∧ st1.clock = st.clock ∧
    (∃ r, findRow st1.rows st.inoId off = some r ∧ r.content = some c) ∧
    (∀ r' ∈ st1.rows, (r'.inode = st.inoId ∧ r'.offset = off) ∨
      ∃ r0 ∈ st.rows, r'.inode = r0.inode ∧ r'.offset = r0.offset) := by
  cases hf : findRow st.rows st.inoId off with
  | some r =>
    simp only [retrieveCreate, hf] at h
    cases hc : r.content with
    | none => rw [hc] at h; cases h
    | some c0 =>
      simp only [hc, Option.some.injEq, Prod.mk.injEq] at h
      obtain ⟨hceq, hst⟩ := h
      subst hceq
      subst hst
      refine ⟨rfl, rfl, rfl, rfl, ?_, ?_⟩
      · refine ⟨atimeUpd st.clock r, ?_, hc⟩
        show findRow (updRow st.rows st.inoId off (atimeUpd st.clock)) st.inoId off = _
        rw [findRow_updRow st.rows st.inoId off (atimeUpd st.clock)
          (fun r => ⟨rfl, rfl⟩), hf]
        rfl
      · intro r' hr'
        right
        obtain ⟨r0, hr0, hor⟩ := mem_updRow _ _ _ _ _ hr'
        rcases hor with he | he
        · exact ⟨r0, hr0, by rw [he]; exact ⟨rfl, rfl⟩⟩
        · exact ⟨r0, hr0, by rw [he]; exact ⟨rfl, rfl⟩⟩
  | none =>
    simp only [retrieveCreate, hf, Option.some.injEq, Prod.mk.injEq] at h
    obtain ⟨hceq, hst⟩ := h
    subst hceq
    subst hst
    refine ⟨rfl, rfl, rfl, rfl, ?_, ?_⟩
    · have hnew : findRow (st.rows ++ [newRowAt st.inoId off st.clock]) st.inoId off =
          some (newRowAt st.inoId off st.clock) := by
        unfold findRow at hf ⊢
        rw [List.find?_append, hf]
        simp [rowKey, newRowAt]
      refine ⟨atimeUpd st.clock (newRowAt st.inoId off st.clock), ?_, rfl⟩
      show findRow (updRow _ st.inoId off (atimeUpd st.clock)) st.inoId off = _
      rw [findRow_updRow _ st.inoId off (atimeUpd st.clock)
        (fun r => ⟨rfl, rfl⟩), hnew]
      rfl
    · intro r' hr'
      obtain ⟨r0, hr0, hor⟩ := mem_updRow _ _ _ _ _ hr'
      have hkeys : r'.inode = r0.inode ∧ r'.offset = r0.offset := by
        rcases hor with he | he
        · rw [he]; exact ⟨rfl, rfl⟩
        · rw [he]; exact ⟨rfl, rfl⟩
      rcases List.mem_append.mp hr0 with hin | hnew
      · exact Or.inr ⟨r0, hin, hkeys⟩
      · left
        have hr0e : r0 = newRowAt st.inoId off st.clock := by simpa using hnew
        rw [hkeys.1, hkeys.2, hr0e]
        exact ⟨rfl, rfl⟩

theorem write_spec (st : FSState) (buf : Bytes) (off : Nat) (r : Row) (c : Bytes)
    (hfind : findRow st.rows st.inoId (st.bs * (off / st.bs)) = some r)
    (hc : r.content = some c) :
    ∃ cnt st2, write st buf off = WriteRes.written cnt st2 ∧
      st2.bs = st.bs ∧ st2.inoId = st.inoId ∧ st2.clock = st.clock ∧
      (∃ r2, findRow st2.rows st.inoId (st.bs * (off / st.bs)) = some r2 ∧
        r2.content = some (writeAt c (off - st.bs * (off / st.bs))
          (if buf.length > (st.bs * (off / st.bs) + st.bs) - off
            then buf.take ((st.bs * (off / st.bs) + st.bs) - off) else buf))) ∧
      (∀ r' ∈ st2.rows, (r'.inode = st.inoId ∧ r'.offset = st.bs * (off / st.bs)) ∨
        ∃ r0 ∈ st.rows, r'.inode = r0.inode ∧ r'.offset = r0.offset) := by
  have hrc : retrieveCreate st (st.bs * (off / st.bs)) =
      some (c, setRowAtime st (st.bs * (off / st.bs))) := by
    simp only [retrieveCreate, hfind, hc]
  cases hwr : write st buf off with
  | remoteFetch =>
    exfalso
    simp only [write, hrc] at hwr
    cases hwr
  | written cnt st2 =>
    refine ⟨cnt, st2, rfl, ?_⟩
    simp only [write, hrc, WriteRes.written.injEq] at hwr
    obtain ⟨hcnt, hst2⟩ := hwr
    subst hst2
    refine ⟨rfl, rfl, rfl, ?_, ?_⟩
    · have hfr : findRow (updRow (updRow st.rows st.inoId (st.bs * (off / st.bs))
          (atimeUpd st.clock)) st.inoId (st.bs * (off / st.bs))
          (contentUpd (writeAt c (off - st.bs * (off / st.bs))
            (if buf.length > (st.bs * (off / st.bs) + st.bs) - off
              then buf.take ((st.bs * (off / st.bs) + st.bs) - off) else buf))))
          st.inoId (st.bs * (off / st.bs)) =
          some (contentUpd (writeAt c (off - st.bs * (off / st.bs))
            (if buf.length > (st.bs * (off / st.bs) + st.bs) - off
              then buf.take ((st.bs * (off / st.bs) + st.bs) - off) else buf))
            (atimeUpd st.clock r)) := by
        rw [findRow_updRow _ st.inoId _ (contentUpd _) (fun r => ⟨rfl, rfl⟩),
          findRow_updRow _ st.inoId _ (atimeUpd _) (fun r => ⟨rfl, rfl⟩), hfind]
        rfl
      exact ⟨_, hfr, rfl⟩
    · intro r' hr'
      obtain ⟨r1, hr1, hor1⟩ := mem_updRow _ _ _ _ _ hr'
      obtain ⟨r0, hr0, hor0⟩ := mem_updRow _ _ _ _ _ hr1
      have hk1 : r'.inode = r1.inode ∧ r'.offset = r1.offset := by
        rcases hor1 with he | he
        · rw [he]; exact ⟨rfl, rfl⟩
        · rw [he]; exact ⟨rfl, rfl⟩
      have hk0 : r1.inode = r0.inode ∧ r1.offset = r0.offset := by
        rcases hor0 with he | he
        · rw [he]; exact ⟨rfl, rfl⟩
        · rw [he]; exact ⟨rfl, rfl⟩
      exact Or.inr ⟨r0, hr0, hk1.1.trans hk0.1, hk1.2.trans hk0.2⟩

theorem ftruncate_spec (st : FSState) (n : Nat) (st' : FSState)
    (h : ftruncate st n = some st') :
    st'.bs = st.bs ∧ st'.inoId = st.inoId ∧
    (∀ r ∈ st'.rows, r.inode = st.inoId → r.offset < n) ∧
    (0 < n → ∃ r2 c2, findRow st'.rows st.inoId (st.bs * ((n - 1) / st.bs)) = some r2 ∧
      r2.content = some c2 ∧ c2.length ≤ n - st.bs * ((n - 1) / st.bs)) := by
  have hkept : ∀ r ∈ st.rows.filter
      (fun r => !(r.inode == st.inoId && decide (n ≤ r.offset))),
      r.inode = st.inoId → r.offset < n := by
    intro r hr hino
    obtain ⟨hmem, hp⟩ := List.mem_filter.mp hr
    simp only [hino, beq_self_eq_true, Bool.true_and, Bool.not_eq_true',
      decide_eq_false_iff_not, not_le] at hp
    exact hp
  have hoble : st.bs * ((n - 1) / st.bs) ≤ n - 1 := by
    rw [Nat.mul_comm]
    exact Nat.div_mul_le_self _ _
  simp only [ftruncate] at h
  by_cases hn : n = 0
  · rw [if_pos hn] at h
    simp only [Option.some.injEq] at h
    subst h
    exact ⟨rfl, rfl, fun r hr hino => hkept r hr hino, fun h0 => absurd h0 (by omega)⟩
  · rw [if_neg hn] at h
    cases hrc : retrieveCreate { st with rows := st.rows.filter (fun r => !(r.inode == st.inoId && decide (n ≤ r.offset))) } (st.bs * ((n - 1) / st.bs)) with
    | none =>
      simp only [get_locked_s3, hrc, Option.map_none'] at h
      exact Option.noConfusion h
    | some p =>
      obtain ⟨c1, st1⟩ := p
      obtain ⟨hbs1, hino1, hinos1, hclk1, ⟨r, hfind, hcont⟩, hmem1⟩ :=
        retrieveCreate_spec _ _ _ _ hrc
      have hbs1' : st1.bs = st.bs := hbs1
      have hino1' : st1.inoId = st.inoId := hino1
      have hfind' : findRow st1.rows st.inoId (st.bs * ((n - 1) / st.bs)) = some r := hfind
      have hmem1' : ∀ r' ∈ st1.rows,
          (r'.inode = st.inoId ∧ r'.offset = st.bs * ((n - 1) / st.bs)) ∨
          ∃ r0 ∈ st.rows.filter (fun r => !(r.inode == st.inoId && decide (n ≤ r.offset))),
            r'.inode = r0.inode ∧ r'.offset = r0.offset := hmem1
      simp only [get_locked_s3, hrc, Option.map_some'] at h
      rw [hino1'] at h
      by_cases hext : n > st.bs * ((n - 1) / st.bs) + c1.length
      · rw [if_pos hext] at h
        have hfind1 : findRow st1.rows st1.inoId (st1.bs * ((n - 1) / st1.bs)) = some r := by
          rw [hbs1', hino1']
          exact hfind'
        obtain ⟨cnt, st2, hw, hbs2, hino2, hclk2, ⟨r2, hfr2, hc2⟩, hmem2⟩ :=
          write_spec st1 [0] (n - 1) r c1 hfind1 hcont
        simp only [hw, Option.some.injEq] at h
        subst h
        rw [hbs1', hino1'] at hfr2
        rw [hbs1'] at hc2
        refine ⟨hbs2.trans hbs1', hino2.trans hino1', ?_, ?_⟩
        · intro r' hr' hino'
          rcases hmem2 r' hr' with ⟨hx, hy⟩ | ⟨r0, hr0, hx, hy⟩
          · have hoy : r'.offset = st.bs * ((n - 1) / st.bs) := by rw [hy, hbs1']
            omega
          · rcases hmem1' r0 hr0 with ⟨hx0, hy0⟩ | ⟨r00, hr00, hx00, hy00⟩
            · have hoy : r'.offset = st.bs * ((n - 1) / st.bs) := by rw [hy, hy0]
              omega
            · have hin00 : r00.inode = st.inoId := by rw [← hx00, ← hx]; exact hino'
              have hb00 := hkept r00 hr00 hin00
              have hoy : r'.offset = r00.offset := hy.trans hy00
              omega
        · intro h0
          have hc2' : r2.content = some (writeAt c1 ((n - 1) - st.bs * ((n - 1) / st.bs))
              (if (1 : Nat) > (st.bs * ((n - 1) / st.bs) + st.bs) - (n - 1)
                then ([0] : Bytes).take ((st.bs * ((n - 1) / st.bs) + st.bs) - (n - 1))
                else [0])) := hc2
          by_cases hd : (1 : Nat) > (st.bs * ((n - 1) / st.bs) + st.bs) - (n - 1)
          · have hm0 : (st.bs * ((n - 1) / st.bs) + st.bs) - (n - 1) = 0 := by omega
            rw [if_pos hd, hm0] at hc2'
            rw [show (([0] : Bytes).take 0) = [] from rfl, writeAt_nil] at hc2'
            exact ⟨r2, c1, hfr2, hc2', by omega⟩
          · rw [if_neg hd] at hc2'
            have hlen : c1.length ≤ (n - 1) - st.bs * ((n - 1) / st.bs) := by omega
            have hwl := writeAt_singleton_length c1 ((n - 1) - st.bs * ((n - 1) / st.bs)) 0 hlen
            refine ⟨r2, _, hfr2, hc2', ?_⟩
            rw [hwl]
            omega
      · rw [if_neg hext] at h
        simp only [Option.some.injEq] at h
        subst h
        refine ⟨hbs1', rfl, ?_, ?_⟩
        · intro r' hr' hino'
          obtain ⟨r0, hr0, hor⟩ := mem_updRow _ _ _ _ _ hr'
          have hk : r'.inode = r0.inode ∧ r'.offset = r0.offset := by
            rcases hor with he | he
            · rw [he]; exact ⟨rfl, rfl⟩
            · rw [he]; exact ⟨rfl, rfl⟩
          rcases hmem1' r0 hr0 with ⟨hx0, hy0⟩ | ⟨r00, hr00, hx00, hy00⟩
          · have hoy : r'.offset = st.bs * ((n - 1) / st.bs) := by rw [hk.2, hy0]
            omega
          · have hin00 : r00.inode = st.inoId := by rw [← hx00, ← hk.1]; exact hino'
            have hb00 := hkept r00 hr00 hin00
            have hoy : r'.offset = r00.offset := hk.2.trans hy00
            omega
        · intro h0
          have hfr := findRow_updRow st1.rows st.inoId (st.bs * ((n - 1) / st.bs))
            (truncUpd (ftruncFile c1 (n - st.bs * ((n - 1) / st.bs)))
              (n - st.bs * ((n - 1) / st.bs))) (fun r => ⟨rfl, rfl⟩)
          rw [hfind'] at hfr
          refine ⟨truncUpd (ftruncFile c1 (n - st.bs * ((n - 1) / st.bs)))
            (n - st.bs * ((n - 1) / st.bs)) r,
            ftruncFile c1 (n - st.bs * ((n - 1) / st.bs)), hfr, rfl, ?_⟩
          rw [ftruncFile_length]

/-- C2: after `ftruncate(n)` completes and no further write or
truncate runs on the inode, every `read(length, offset)` with
`offset ≥ n` returns only zero bytes: every block at or beyond the
truncation point was deleted from the catalog (and a sparse hole reads
as `length` zero bytes), and the straddling block's cache file was cut
to `n - block_offset` bytes, so a read from a position at or past its
end returns no data.  (`ftruncate` resolves the source's undefined
`get_locked_s3` from the spec; see the doc comments of `ftruncate` and
`get_locked_s3`.) -/
theorem c2_truncate_then_read_zero (st : FSState) (n : Nat) (st' : FSState)
    (h : ftruncate st n = some st') (length offset : Nat) (hoff : n ≤ offset) :
    ∃ l, (read st' length offset).1 = ReadRes.bytes l ∧ ∀ b ∈ l, b = 0 := by
  obtain ⟨hbs, hino, hbound, hstraddle⟩ := ftruncate_spec st n st' h
  by_cases hcase : n ≤ st'.bs * (offset / st'.bs)
  · have hnone : findRow st'.rows st'.inoId (st'.bs * (offset / st'.bs)) = none := by
      rw [findRow_eq_none_iff]
      intro r hr hbad
      have hlt := hbound r hr (by rw [← hino]; exact hbad.1)
      have hoeq := hbad.2
      omega
    rw [read_miss st' length offset hnone]
    refine ⟨_, rfl, ?_⟩
    intro b hb
    exact List.eq_of_mem_replicate hb
  · push_neg at hcase
    rw [hbs] at hcase
    have hn0 : 0 < n := by omega
    obtain ⟨r2, c2, hfind, hcont, hlen⟩ := hstraddle hn0
    have hbeq : st'.bs * (offset / st'.bs) = st.bs * ((n - 1) / st.bs) := by
      rw [hbs]
      rcases Nat.eq_zero_or_pos st.bs with hz | hpos
      · rw [hz]; simp
      · apply Nat.le_antisymm
        · have h1 : st.bs * (offset / st.bs) ≤ n - 1 := by omega
          have h2 : offset / st.bs ≤ (n - 1) / st.bs := by
            rw [Nat.le_div_iff_mul_le hpos]
            calc offset / st.bs * st.bs = st.bs * (offset / st.bs) := Nat.mul_comm _ _
              _ ≤ n - 1 := h1
          exact Nat.mul_le_mul_left _ h2
        · have h2 : (n - 1) / st.bs ≤ offset / st.bs :=
            Nat.div_le_div_right (by omega)
          exact Nat.mul_le_mul_left _ h2
    have hfind' : findRow st'.rows st'.inoId (st'.bs * (offset / st'.bs)) = some r2 := by
      rw [hbeq, hino]
      exact hfind
    rw [read_hit st' length offset r2 c2 hfind' hcont]
    refine ⟨_, rfl, ?_⟩
    intro b hb
    have hdrop : c2.drop (offset - st'.bs * (offset / st'.bs)) = [] := by
      apply List.drop_eq_nil_of_le
      rw [hbeq]
      omega
    simp only [osRead] at hb
    rw [hdrop] at hb
    simp at hb

/-- Witness for C2: truncating the three-byte file of `threeByteState`
to two bytes and then reading four bytes at offset 5 yields only zero
bytes. -/
theorem c2_truncate_then_read_zero_witness :
    ∃ l, (read ((ftruncate threeByteState 2).getD threeByteState) 4 5).1 =
      ReadRes.bytes l ∧ ∀ b ∈ l, b = 0 :=
  c2_truncate_then_read_zero threeByteState 2
    ((ftruncate threeByteState 2).getD threeByteState) (by decide) 4 5 (by decide)

/-! ### Claim C4 -/

theorem retryLoop_spec (lookup : Nat → Nat) (etag : Nat) :
    ∀ (fuel meta : Nat) (waited waittime : ℚ) (k : Nat) (ws : List ℚ) (m : Nat),
      retryLoop lookup etag fuel meta waited waittime k = some (ws, m) →
      (∀ i, i < ws.length → ws.getD i 0 = waittime * (3 / 2) ^ i) ∧
      (m = etag ∨ (m ≠ etag ∧ 30 ≤ waited + ws.sum)) ∧
      (∀ j, j < ws.length → waited + (ws.take j).sum < 30) ∧
      (∀ j, j + 1 < ws.length → lookup (k + j) ≠ etag) ∧
      (ws = [] → m = meta) ∧
      (ws ≠ [] → m = lookup (k + ws.length - 1)) ∧
      (ws ≠ [] → meta ≠ etag) := by
  intro fuel
  induction fuel with
  | zero =>
    intro meta waited waittime k ws m h
    simp only [retryLoop] at h
    by_cases hc : meta ≠ etag ∧ waited < 30
    · rw [if_pos hc] at h; cases h
    · rw [if_neg hc] at h
      obtain ⟨hws, hm⟩ : ws = [] ∧ meta = m := by
        cases h; exact ⟨rfl, rfl⟩
      subst hws; subst hm
      refine ⟨by simp, ?_, by simp, by simp, fun _ => rfl, by simp, by simp⟩
      by_cases he : meta = etag
      · exact Or.inl he
      · refine Or.inr ⟨he, ?_⟩
        have h30 : ¬ waited < 30 := fun hlt => hc ⟨he, hlt⟩
        simp only [List.sum_nil, add_zero]
        linarith
  | succ fuel ih =>
    intro meta waited waittime k ws m h
    simp only [retryLoop] at h
    by_cases hc : meta ≠ etag ∧ waited < 30
    · rw [if_pos hc] at h
      cases hrec : retryLoop lookup etag fuel (lookup k) (waited + waittime)
          (waittime * (3 / 2)) (k + 1) with
      | none => rw [hrec] at h; cases h
      | some p =>
        obtain ⟨ws', m'⟩ := p
        rw [hrec] at h
        obtain ⟨hws, hm⟩ : waittime :: ws' = ws ∧ m' = m := by
          cases h; exact ⟨rfl, rfl⟩
        subst hm
        obtain ⟨ih1, ih2, ih3, ih4, ih5, ih6, ih7⟩ :=
          ih (lookup k) (waited + waittime) (waittime * (3 / 2)) (k + 1) ws' m' hrec
        subst hws
        refine ⟨?_, ?_, ?_, ?_, ?_, ?_, ?_⟩
        · intro i hi
          cases i with
          | zero => simp
          | succ i' =>
            rw [List.getD_cons_succ]
            rw [ih1 i' (by simpa using hi)]
            ring
        · rcases ih2 with h2 | ⟨h2, h2s⟩
          · left; exact h2
          · right
            refine ⟨h2, ?_⟩
            rw [List.sum_cons]
            linarith
        · intro j hj
          cases j with
          | zero => simpa using hc.2
          | succ j' =>
            rw [List.take_succ_cons, List.sum_cons]
            have := ih3 j' (by simpa using hj)
            linarith
        · intro j hj
          cases j with
          | zero =>
            have hne : ws' ≠ [] := by
              intro he; rw [he] at hj; simp at hj
            simpa using ih7 hne
          | succ j' =>
            have := ih4 j' (by simpa using hj)
            have harg : k + 1 + j' = k + (j' + 1) := by omega
            rwa [harg] at this
        · intro he; cases he
        · intro _
          by_cases hws : ws' = []
          · subst hws
            rw [ih5 rfl]
            simp
          · rw [ih6 hws]
            congr 1
            simp only [List.length_cons]
            omega
        · intro _; exact hc.1
    · rw [if_neg hc] at h
      obtain ⟨hws, hm⟩ : ws = [] ∧ meta = m := by
        cases h; exact ⟨rfl, rfl⟩
      subst hws; subst hm
      refine ⟨by simp, ?_, by simp, by simp, fun _ => rfl, by simp, by simp⟩
      by_cases he : meta = etag
      · exact Or.inl he
      · refine Or.inr ⟨he, ?_⟩
        have h30 : ¬ waited < 30 := fun hlt => hc ⟨he, hlt⟩
        simp only [List.sum_nil, add_zero]
        linarith

theorem retryLoop_isSome (lookup : Nat → Nat) (etag : Nat) :
    ∀ (fuel meta : Nat) (waited waittime : ℚ) (k : Nat),
      1 / 100 ≤ waittime → 30 ≤ waited + (fuel : ℚ) * (1 / 100) →
      (retryLoop lookup etag fuel meta waited waittime k).isSome := by
  intro fuel
  induction fuel with
  | zero =>
    intro meta waited waittime k hw hsum
    have h30 : (30 : ℚ) ≤ waited := by push_cast at hsum; linarith
    simp only [retryLoop]
    rw [if_neg (fun hcc => absurd h30 (not_le.mpr hcc.2))]
    rfl
  | succ fuel ih =>
    intro meta waited waittime k hw hsum
    simp only [retryLoop]
    by_cases hc : meta ≠ etag ∧ waited < 30
    · rw [if_pos hc]
      have hw2 : 1 / 100 ≤ waittime * (3 / 2) := by nlinarith
      have hsum2 : 30 ≤ waited + waittime + (fuel : ℚ) * (1 / 100) := by
        push_cast at hsum
        linarith
      have hrec := ih (lookup k) (waited + waittime) (waittime * (3 / 2)) (k + 1) hw2 hsum2
      cases he : retryLoop lookup etag fuel (lookup k) (waited + waittime)
          (waittime * (3 / 2)) (k + 1) with
      | none => rw [he] at hrec; cases hrec
      | some p =>
        obtain ⟨ws, m⟩ := p
        rfl
    · rw [if_neg hc]
      rfl

/-- C4: when the tag of a fetched object disagrees with the catalog
tag, `retrieve_s3` retries with sleeps of 10 ms growing by a factor of
1.5 each attempt; as long as the loop runs, the cumulative wait so far
is below the 30 s ceiling (the source compares `waited < self.timeout`
with `self.timeout = 30` before each sleep); every lookup except
possibly the last one disagreed; if the loop ends with the tags in
agreement the payload is fetched again and neither `mark_damaged` nor
the I/O error occurs; if the tags still disagree — which can only
happen once the cumulative wait has reached at least the 30 s ceiling —
the filesystem is marked damaged and `FUSEError(errno.EIO)` is
raised. -/
theorem c4_reconcile_backoff (lookup : Nat → Nat) (etag meta0 : Nat) (h : meta0 ≠ etag) :
    ∃ out : RetrieveOut, reconcile lookup etag meta0 = some out ∧
      (∀ i, i < out.waits.length → out.waits.getD i 0 = (1 / 100) * (3 / 2) ^ i) ∧
      (∀ j, j < out.waits.length → (out.waits.take j).sum < 30) ∧
      (out.damaged = false → out.finalTag = etag ∧ out.ioError = false ∧
        out.refetched = true) ∧
      (out.damaged = true → out.finalTag ≠ etag ∧ out.ioError = true ∧
        out.refetched = false ∧ 30 ≤ out.waits.sum) ∧
      (∀ j, j + 1 < out.waits.length → lookup j ≠ etag) := by
  have hs := retryLoop_isSome lookup etag 3001 meta0 0 (1 / 100) 0 (le_refl _)
    (by push_cast; norm_num)
  obtain ⟨p, hp⟩ := Option.isSome_iff_exists.mp hs
  obtain ⟨ws, m⟩ := p
  obtain ⟨s1, s2, s3, s4, s5, s6, s7⟩ :=
    retryLoop_spec lookup etag 3001 meta0 0 (1 / 100) 0 ws m hp
  by_cases hm : m = etag
  · refine ⟨⟨ws, m, false, false, true⟩, ?_, ?_, ?_, ?_, ?_, ?_⟩
    · unfold reconcile
      rw [if_neg h, hp]
      simp [hm]
    · exact s1
    · intro j hj
      have := s3 j hj
      linarith
    · intro _; exact ⟨hm, rfl, rfl⟩
    · intro hfalse; cases hfalse
    · intro j hj
      have := s4 j hj
      simpa using this
  · refine ⟨⟨ws, m, true, true, false⟩, ?_, ?_, ?_, ?_, ?_, ?_⟩
    · unfold reconcile
      rw [if_neg h, hp]
      simp [hm]
    · exact s1
    · intro j hj
      have := s3 j hj
      linarith
    · intro hfalse; cases hfalse
    · intro _
      refine ⟨hm, rfl, rfl, ?_⟩
      rcases s2 with h2 | ⟨_, h2s⟩
      · exact absurd h2 hm
      · linarith
    · intro j hj
      have := s4 j hj
      simpa using this

/-- Witness for C4: catalog tag 0, fetched tag 1, and a store whose
lookups return the catalog tag at once — the loop sleeps once and
converges without damage. -/
theorem c4_reconcile_backoff_witness :
    ∃ out : RetrieveOut, reconcile (fun _ => 0) 0 1 = some out ∧
      (∀ i, i < out.waits.length → out.waits.getD i 0 = (1 / 100) * (3 / 2) ^ i) ∧
      (∀ j, j < out.waits.length → (out.waits.take j).sum < 30) ∧
      (out.damaged = false → out.finalTag = 0 ∧ out.ioError = false ∧
        out.refetched = true) ∧
      (out.damaged = true → out.finalTag ≠ 0 ∧ out.ioError = true ∧
        out.refetched = false ∧ 30 ≤ out.waits.sum) ∧
      (∀ j, j + 1 < out.waits.length → (fun _ : Nat => 0) j ≠ 0) :=
  c4_reconcile_backoff (fun _ => 0) 0 1 (by decide)

/-! ### Claim C8 -/

theorem digitChar_toNat : ∀ d : Nat, d < 10 → (digitChar d).toNat = 48 + d := by
  decide

theorem decRepr_digits : ∀ n : Nat, ∀ c ∈ decRepr n, 48 ≤ c.toNat ∧ c.toNat ≤ 57 := by
  intro n
  induction n using Nat.strong_induction_on with
  | _ n ih =>
    intro c hc
    by_cases h : n < 10
    · rw [decRepr, dif_pos h] at hc
      have hcd : c = digitChar n := by simpa using hc
      rw [hcd, digitChar_toNat n h]
      omega
    · rw [decRepr, dif_neg h] at hc
      rcases List.mem_append.mp hc with hl | hr
      · exact ih (n / 10) (Nat.div_lt_self (by omega) (by omega)) c hl
      · have hcd : c = digitChar (n % 10) := by simpa using hr
        have hm : n % 10 < 10 := Nat.mod_lt _ (by omega)
        rw [hcd, digitChar_toNat _ hm]
        omega

theorem decVal_append_digit (l : List Char) (c : Char) :
    decVal (l ++ [c]) = 10 * decVal l + dval c := by
  simp [decVal, List.foldl_append]

theorem decVal_decRepr : ∀ n : Nat, decVal (decRepr n) = n := by
  intro n
  induction n using Nat.strong_induction_on with
  | _ n ih =>
    by_cases h : n < 10
    · rw [decRepr, dif_pos h]
      have : dval (digitChar n) = n := by
        unfold dval
        rw [digitChar_toNat n h]
        omega
      simp [decVal, dval, digitChar_toNat n h]
    · rw [decRepr, dif_neg h, decVal_append_digit,
        ih (n / 10) (Nat.div_lt_self (by omega) (by omega))]
      have hm : n % 10 < 10 := Nat.mod_lt _ (by omega)
      unfold dval
      rw [digitChar_toNat _ hm]
      omega

theorem decRepr_inj (a b : Nat) (h : decRepr a = decRepr b) : a = b := by
  have := congrArg decVal h
  rwa [decVal_decRepr, decVal_decRepr] at this

theorem decRepr_no_dash (n : Nat) : '-' ∉ decRepr n := by
  intro h
  have hb := decRepr_digits n '-' h
  have : ('-').toNat = 45 := rfl
  omega

theorem decRepr_no_tilde (n : Nat) : '~' ∉ decRepr n := by
  intro h
  have hb := decRepr_digits n '~' h
  have : ('~').toNat = 126 := rfl
  omega

theorem decRepr_no_sep (n : Nat) : '/' ∉ decRepr n := by
  intro h
  have hb := decRepr_digits n '/' h
  have : ('/').toNat = 47 := rfl
  omega

theorem repl1_eq_self : ∀ l : List Char, '~' ∉ l → repl1 l = l := by
  intro l
  induction l with
  | nil => intro _; rfl
  | cons a t ih =>
    intro h
    have ha : ¬(a = '~') := fun he => h (by rw [he]; exact List.mem_cons_self _ _)
    have ht : '~' ∉ t := fun hm => h (List.mem_cons_of_mem _ hm)
    simp only [repl1, if_neg ha]
    rw [ih ht]

theorem repl2_eq_self : ∀ l : List Char, '/' ∉ l → repl2 l = l := by
  intro l
  induction l with
  | nil => intro _; rfl
  | cons a t ih =>
    intro h
    have ha : ¬(a = '/') := fun he => h (by rw [he]; exact List.mem_cons_self _ _)
    have ht : '/' ∉ t := fun hm => h (List.mem_cons_of_mem _ hm)
    simp only [repl2, if_neg ha]
    rw [ih ht]

theorem append_dash_inj : ∀ l1 l1' l2 l2' : List Char,
    '-' ∉ l1 → '-' ∉ l1' → l1 ++ '-' :: l2 = l1' ++ '-' :: l2' →
    l1 = l1' ∧ l2 = l2' := by
  intro l1
  induction l1 with
  | nil =>
    intro l1' l2 l2' h1 h1' h
    cases l1' with
    | nil => simpa using h
    | cons a t =>
      exfalso
      simp only [List.nil_append, List.cons_append, List.cons.injEq] at h
      apply h1'
      rw [h.1]
      exact List.mem_cons_self _ _
  | cons a t ih =>
    intro l1' l2 l2' h1 h1' h
    cases l1' with
    | nil =>
      exfalso
      simp only [List.cons_append, List.nil_append, List.cons.injEq] at h
      apply h1
      rw [← h.1]
      exact List.mem_cons_self _ _
    | cons a' t' =>
      simp only [List.cons_append, List.cons.injEq] at h
      obtain ⟨ha, ht⟩ := h
      have h1t : '-' ∉ t := fun hm => h1 (List.mem_cons_of_mem _ hm)
      have h1t' : '-' ∉ t' := fun hm => h1' (List.mem_cons_of_mem _ hm)
      obtain ⟨he, hl⟩ := ih t' l2 l2' h1t h1t' ht
      exact ⟨by rw [ha, he], hl⟩

theorem keyTail_no_tilde (i o : Nat) :
    '~' ∉ '3' :: 'q' :: 'l' :: '_' :: (decRepr i ++ '-' :: decRepr o) := by
  intro h
  simp only [List.mem_cons, List.mem_append] at h
  rcases h with h | h | h | h | h
  · exact absurd h (by decide)
  · exact absurd h (by decide)
  · exact absurd h (by decide)
  · exact absurd h (by decide)
  rcases h with h | h
  · exact decRepr_no_tilde i h
  rcases h with h | h
  · exact absurd h (by decide)
  · exact decRepr_no_tilde o h

theorem keyTail_no_sep (i o : Nat) :
    '/' ∉ '3' :: 'q' :: 'l' :: '_' :: (decRepr i ++ '-' :: decRepr o) := by
  intro h
  simp only [List.mem_cons, List.mem_append] at h
  rcases h with h | h | h | h | h
  · exact absurd h (by decide)
  · exact absurd h (by decide)
  · exact absurd h (by decide)
  · exact absurd h (by decide)
  rcases h with h | h
  · exact decRepr_no_sep i h
  rcases h with h | h
  · exact absurd h (by decide)
  · exact decRepr_no_sep o h

theorem cacheFileOf_mkKey (i o : Nat) :
    cacheFileOf (mkKey i o) =
      '3' :: 'q' :: 'l' :: '_' :: (decRepr i ++ '-' :: decRepr o) := by
  unfold cacheFileOf mkKey
  rw [List.drop_one, List.tail_cons]
  rw [repl1_eq_self _ (keyTail_no_tilde i o), repl2_eq_self _ (keyTail_no_sep i o)]

/-- C8 counterexample: the escaping the source applies to a key — drop
the first character, double tildes, then turn path separators into
tildes (line 123) — is NOT one-to-one on keys: the distinct keys
`"s~/"` and `"s/~"` both yield the cache filename `"~~~"` (even the
escaping alone, without the dropped character, collides on `"~/"`
versus `"/~"`). -/
theorem c8_escape_collision :
    cacheFileOf ('s' :: '~' :: '/' :: []) = cacheFileOf ('s' :: '/' :: '~' :: []) ∧
    ('s' :: '~' :: '/' :: [] : List Char) ≠ 's' :: '/' :: '~' :: [] := by
  decide

/-- C8 amended: on the keys the code actually generates — strings
`"s3ql_<inode>-<offset>"` with decimal inode and offset (line 122) —
the derived cache filenames are distinct for distinct keys, because
such keys contain no tilde and no separator and agree on their first
character, so the key (and its block address) can be recovered from
the filename. -/
theorem c8_injective_on_generated_keys (i o i' o' : Nat)
    (h : cacheFileOf (mkKey i o) = cacheFileOf (mkKey i' o')) : i = i' ∧ o = o' := by
  rw [cacheFileOf_mkKey, cacheFileOf_mkKey] at h
  simp only [List.cons.injEq, true_and] at h
  obtain ⟨hi, ho⟩ := append_dash_inj _ _ _ _ (decRepr_no_dash i) (decRepr_no_dash i') h
  exact ⟨decRepr_inj _ _ hi, decRepr_inj _ _ ho⟩

/-- Witness for C8's amended theorem at inode 1, offset 0. -/
theorem c8_injective_on_generated_keys_witness : (1 : Nat) = 1 ∧ (0 : Nat) = 0 :=
  c8_injective_on_generated_keys 1 0 1 0 rfl

/-! ### Claim C9 -/

/-- C9: in every registry state reachable by any interleaving of lock
and unlock steps from the empty registry, at most one task holds any
given key: the held keys are pairwise distinct.  `lock` adds a key
only once no task holds it (the caller waits on the condition variable
until then), and `unlock` only removes. -/
theorem c9_at_most_one_holder (s : List (String × Nat)) (h : LockReach s) :
    (s.map Prod.fst).Nodup := by
  induction h with
  | init => simp
  | step _ hstep ih =>
    cases hstep with
    | lock k t hfree =>
      simp only [List.map_cons, List.nodup_cons]
      refine ⟨?_, ih⟩
      intro hmem
      rcases List.mem_map.mp hmem with ⟨p, hp, hpk⟩
      exact hfree p hp hpk
    | unlock k t =>
      exact ((List.erase_sublist _ _).map Prod.fst).nodup ih

/-- Witness for C9: the registry holding the single key of inode 1,
block 0, reached by one lock step, has pairwise-distinct held keys. -/
theorem c9_at_most_one_holder_witness :
    (([("s3ql_1-0", 0)] : List (String × Nat)).map Prod.fst).Nodup :=
  c9_at_most_one_holder [("s3ql_1-0", 0)]
    (LockReach.step LockReach.init (LockStep.lock [] "s3ql_1-0" 0 (by simp)))

end S3QL
